import Mathlib

/-!
Shallow embedding of `src/chat_agent.py` (the Glystn assistant) and proofs of
the specification's claims about it.

The embedded pieces are:
* `_clean` — the sanitizer `re.sub(r"https?://\S+|www\.\S+", "", text)`,
  whitespace collapsing `re.sub(r"\s+", " ", text).strip()`, and `text[:1000]`;
* `semantic_search` — the tool body: HTTP GET with every failure up to and
  including `r.json().get("results", [])` caught (returning `[]`), followed by
  the item loop `if _id and text: results.append({"id": _id, "text": _clean(text)})`,
  which runs outside the `try` and can raise;
* `runTurn` — the Streamlit turn: `if prompt:` (Python truthiness), the call to
  the agent runner, and `st.session_state.history.extend([...])` on success.

JSON values and Python truthiness are modelled explicitly so that entries with
missing, falsy, or non-string fields behave exactly as in Python.
-/

namespace ChatAgent

/-! ### Sanitizer (`_clean`, chat_agent.py lines 14-18) -/

/-- Python `\s` on the ASCII range: the whitespace class used by `re`. -/
def pySpace (c : Char) : Bool :=
  c == ' ' || c == '\t' || c == '\n' || c == '\r' || c == '\x0b' || c == '\x0c'

/-- `pat` is a leading pattern of `cs` (literal character match). -/
def beginsWith : List Char → List Char → Bool
  | [], _ => true
  | _ :: _, [] => false
  | a :: pa, b :: cb => a == b && beginsWith pa cb

/-- `\S+` at the head: requires at least one non-space character and greedily
consumes all of them; returns the remainder after the match. -/
def matchTail : List Char → Option (List Char)
  | [] => none
  | c :: t =>
    if pySpace c then none
    else some (List.dropWhile (fun x => !pySpace x) (c :: t))

/-- Match the literal `pat` followed by `\S+` at the head of `cs`. -/
def matchPat (pat cs : List Char) : Option (List Char) :=
  if beginsWith pat cs then matchTail (cs.drop pat.length) else none

/-- A match of `https?://\S+|www\.\S+` starting at the head of `cs`,
returning the remainder after the match.  The alternatives are mutually
exclusive, so the cascade order is irrelevant to the result. -/
def urlMatch (cs : List Char) : Option (List Char) :=
  match matchPat "https://".toList cs with
  | some r => some r
  | none =>
    match matchPat "http://".toList cs with
    | some r => some r
    | none => matchPat "www.".toList cs

/-- `re.sub(r"https?://\S+|www\.\S+", "", text)`: scan left to right; at a
match, drop it and continue after it, otherwise keep the character.  The fuel
argument (instantiated with the list length, which every step strictly
decreases) makes the recursion structural so that it reduces in the kernel. -/
def removeUrlsAux : Nat → List Char → List Char
  | 0, cs => cs
  | _ + 1, [] => []
  | fuel + 1, c :: rest =>
    match urlMatch (c :: rest) with
    | some rem => removeUrlsAux fuel rem
    | none => c :: removeUrlsAux fuel rest

def removeUrls (cs : List Char) : List Char := removeUrlsAux cs.length cs

/-- `re.sub(r"\s+", " ", text)`: each maximal whitespace run becomes one `' '`.
The flag records whether we are inside a run whose `' '` was already emitted. -/
def collapseWsGo : Bool → List Char → List Char
  | _, [] => []
  | inRun, c :: rest =>
    if pySpace c then
      if inRun then collapseWsGo true rest
      else ' ' :: collapseWsGo true rest
    else c :: collapseWsGo false rest

def collapseWs (cs : List Char) : List Char := collapseWsGo false cs

/-- Python `str.strip()`: drop leading and trailing whitespace. -/
def pyStrip (cs : List Char) : List Char :=
  ((List.dropWhile pySpace cs).reverse.dropWhile pySpace).reverse

/-- The whole sanitizer pipeline on character lists, ending with `[:1000]`. -/
def cleanChars (cs : List Char) : List Char :=
  (pyStrip (collapseWs (removeUrls cs))).take 1000

/-- `_clean` from chat_agent.py, on strings. -/
def _clean (s : String) : String := String.mk (cleanChars s.data)

/-- Specification-side predicate: `cs` contains, at some position, a substring
matching `https?://\S+|www\.\S+`. -/
def hasUrl : List Char → Bool
  | [] => false
  | c :: rest => (urlMatch (c :: rest)).isSome || hasUrl rest

/-- The three literal alternatives of the URL regex. -/
def patOk (pat : List Char) : Prop :=
  pat = "https://".toList ∨ pat = "http://".toList ∨ pat = "www.".toList

/-- Specification-side predicate: all whitespace is a single `' '` between
non-space characters (the shape `re.sub(r"\s+", " ", ·)` produces). -/
def collapsed : List Char → Bool
  | [] => true
  | [c] => !pySpace c || c == ' '
  | c :: d :: rest =>
    (!pySpace c || (c == ' ' && !pySpace d)) && collapsed (d :: rest)

/-! ### JSON model and `semantic_search` (chat_agent.py lines 20-45) -/

/-- JSON values as delivered by `r.json()`. -/
inductive Json where
  | null : Json
  | bool : Bool → Json
  | num : Int → Json
  | str : String → Json
  | arr : List Json → Json
  | obj : List (String × Json) → Json

/-- Python truthiness of a JSON value (`if _id and text:`). -/
def Json.truthy : Json → Bool
  | .null => false
  | .bool b => b
  | .num n => n != 0
  | .str s => s != ""
  | .arr l => !l.isEmpty
  | .obj l => !l.isEmpty

def Json.isObj : Json → Bool
  | .obj _ => true
  | _ => false

/-- Exceptions the item loop can raise (it runs outside the `try`). -/
inductive PyErr where
  | attributeError : PyErr
  | typeError : PyErr
deriving DecidableEq

/-- `item.get(key)`: returns the value (or `None`, modelled `Json.null`) when
`item` is a dict, raises `AttributeError` otherwise. -/
def pyGet (item : Json) (key : String) : Except PyErr Json :=
  match item with
  | .obj kvs =>
    .ok (match kvs.lookup key with
         | some v => v
         | none => Json.null)
  | _ => .error .attributeError

/-- Total variant of `item.get(key)` with `None`/`null` for the failure cases;
used only to state properties of entries that the loop actually accepts. -/
def pyGetD (item : Json) (key : String) : Json :=
  match item with
  | .obj kvs =>
    (match kvs.lookup key with
     | some v => v
     | none => Json.null)
  | _ => Json.null

/-- Python `for item in data`: lists iterate their elements, strings their
characters, dicts their keys; other values raise `TypeError`. -/
def pyIter : Json → Except PyErr (List Json)
  | .arr l => .ok l
  | .str s => .ok (s.data.map fun c => Json.str (String.singleton c))
  | .obj kvs => .ok (kvs.map fun kv => Json.str kv.1)
  | _ => .error .typeError

/-- One `{id, text}` dict appended by the loop.  The id is stored exactly as
returned by the endpoint (the code does not convert it). -/
structure SearchResult where
  id : Json
  text : String

/-- The loop over `data` (chat_agent.py lines 39-43): per item read `_id` and
`transcript` (raising `AttributeError` on non-dict items), keep the item only
when both are truthy, and sanitize the text (`re.sub` raises `TypeError` when
the transcript is truthy but not a string). -/
def processItems : List Json → Except PyErr (List SearchResult)
  | [] => .ok []
  | item :: rest =>
    match pyGet item "_id" with
    | .error e => .error e
    | .ok i =>
      match pyGet item "transcript" with
      | .error e => .error e
      | .ok t =>
        if i.truthy && t.truthy then
          match t with
          | .str s =>
            (match processItems rest with
             | .error e => .error e
             | .ok tail => .ok (⟨i, _clean s⟩ :: tail))
          | _ => .error .typeError
        else processItems rest

/-- An HTTP response: a status code and the parsed body (`none` models a body
on which `r.json()` raises). -/
structure HttpResponse where
  status : Nat
  body : Option Json

def is2xx (n : Nat) : Bool := 200 ≤ n && n < 300

/-- `data = r.json().get("results", [])`, with all the failures that the
`except` clause catches collapsed to `none`: a non-2xx status
(`raise_for_status`), a malformed body (`r.json()` raises), or a top-level
body that is not an object (`.get` raises `AttributeError`). -/
def extractData (r : HttpResponse) : Option Json :=
  if is2xx r.status then
    match r.body with
    | some (Json.obj kvs) =>
      some (match kvs.lookup "results" with
            | some v => v
            | none => Json.arr [])
    | _ => none
  else none

/-- `semantic_search` (chat_agent.py lines 20-45).  The input is the network
outcome: `Except.error` models `client.get` itself raising.  Everything up to
the extraction of `data` is inside the `try` and yields `[]` on failure; the
item loop runs outside the `try`, so its exceptions propagate. -/
def semantic_search (net : Except Unit HttpResponse) :
    Except PyErr (List SearchResult) :=
  match net with
  | .error _ => .ok []
  | .ok r =>
    match extractData r with
    | none => .ok []
    | some data =>
      match pyIter data with
      | .error e => .error e
      | .ok items => processItems items

/-- The list `data` iterates over, when `semantic_search` reaches the loop. -/
def responseItems (net : Except Unit HttpResponse) : Option (List Json) :=
  match net with
  | .error _ => none
  | .ok r =>
    match extractData r with
    | none => none
    | some data =>
      match pyIter data with
      | .error _ => none
      | .ok items => some items

/-- The acceptance test of the loop: both fields present and truthy. -/
def includeItem (item : Json) : Bool :=
  (pyGetD item "_id").truthy && (pyGetD item "transcript").truthy

def itemText : Json → String
  | .str s => s
  | _ => ""

/-- The `{id, text}` dict an accepted item contributes. -/
def mkResult (item : Json) : SearchResult :=
  ⟨pyGetD item "_id", _clean (itemText (pyGetD item "transcript"))⟩

/-- The failure cases of the GET that the `except` clause catches: network
error, non-2xx status, malformed JSON, or a top-level body that is not an
object. -/
def badRequest : Except Unit HttpResponse → Prop
  | .error _ => True
  | .ok r =>
    is2xx r.status = false ∨ r.body = none ∨
      ∃ j, r.body = some j ∧ j.isObj = false

/-! ### Conversation turn (chat_agent.py lines 80-93) -/

/-- One entry of `st.session_state.history`. -/
structure Turn where
  role : String
  content : String
deriving DecidableEq

/-- One Streamlit rerun with user input `prompt` (`none`: no submission).
`if prompt:` is Python truthiness, so only `none` and `""` are skipped.
On a submission, `convo = history + [{role: user, content: prompt}]` is passed
to the agent runner (`reason`, which internally may call `semantic_search`);
only after it returns is `history.extend([userTurn, assistantTurn])` run, so
when the runner raises, the session history is left as it was (the exception
propagates to the UI layer, modelled by returning the unchanged history).
The second component records whether the runner was invoked at all. -/
def runTurn (history : List Turn) (prompt : Option String)
    (reason : List Turn → Except Unit String) : List Turn × Bool :=
  match prompt with
  | none => (history, false)
  | some p =>
    if p = "" then (history, false)
    else
      match reason (history ++ [⟨"user", p⟩]) with
      | .error _ => (history, true)
      | .ok answer => (history ++ [⟨"user", p⟩, ⟨"assistant", answer⟩], true)

/-! ### Concrete inputs used by counterexamples and witnesses -/

/-- A 200 response whose `results` list holds two entries with the same
`_id` value `"a"`. -/
def c1net : Except Unit HttpResponse :=
  .ok ⟨200, some (Json.obj [("results", Json.arr
    [Json.obj [("_id", Json.str "a"), ("transcript", Json.str "x")],
     Json.obj [("_id", Json.str "a"), ("transcript", Json.str "y")]])])⟩

/-- A 200 response with one entry whose transcript consists of a URL only. -/
def c3net : Except Unit HttpResponse :=
  .ok ⟨200, some (Json.obj [("results", Json.arr
    [Json.obj [("_id", Json.str "a"),
               ("transcript", Json.str "http://spam.example/x")]])])⟩

/-- A 200 response with a well-behaved single entry. -/
def c3okNet : Except Unit HttpResponse :=
  .ok ⟨200, some (Json.obj [("results", Json.arr
    [Json.obj [("_id", Json.str "a"), ("transcript", Json.str "hello")]])])⟩

/-- A 200 response that parses fine but whose `results` list contains a
non-object entry, on which `item.get` raises. -/
def c6net : Except Unit HttpResponse :=
  .ok ⟨200, some (Json.obj [("results", Json.arr [Json.num 5])])⟩

/-- A 200 response mixing accepted entries, falsy fields and missing fields. -/
def c10net : Except Unit HttpResponse :=
  .ok ⟨200, some (Json.obj [("results", Json.arr
    [Json.obj [("_id", Json.str "a"), ("transcript", Json.str "x")],
     Json.obj [("_id", Json.str ""), ("transcript", Json.str "y")],
     Json.obj [("_id", Json.str "b")],
     Json.obj [("_id", Json.str "c"), ("transcript", Json.str "z")]])])⟩

def c10items : List Json :=
  [Json.obj [("_id", Json.str "a"), ("transcript", Json.str "x")],
   Json.obj [("_id", Json.str ""), ("transcript", Json.str "y")],
   Json.obj [("_id", Json.str "b")],
   Json.obj [("_id", Json.str "c"), ("transcript", Json.str "z")]]

/-- `n` copies of `" b"`. -/
def spacedBs : Nat → List Char
  | 0 => []
  | n + 1 => ' ' :: 'b' :: spacedBs n

/-- 1001 sanitized characters `"a b b ... b"`: position 999 (0-based) is a
space, so `[:1000]` leaves a trailing space that a second `_clean` strips. -/
def s9 : String := String.mk ('a' :: spacedBs 500)

/-! ### Lemmas about the URL matcher -/

theorem beginsWith_iff (pat cs : List Char) :
    beginsWith pat cs = true ↔ ∃ t, pat ++ t = cs := by
  induction pat generalizing cs with
  | nil => simp [beginsWith]
  | cons a pa ih =>
    cases cs with
    | nil => simp [beginsWith]
    | cons b cb =>
      simp only [beginsWith, Bool.and_eq_true, beq_iff_eq, ih, List.cons_append]
      constructor
      · rintro ⟨rfl, t, rfl⟩; exact ⟨t, rfl⟩
      · rintro ⟨t, h⟩
        injection h with h1 h2
        exact ⟨h1, t, h2⟩

theorem dropWhile_cons_false {p : Char → Bool} {l : List Char} {d : Char}
    {t : List Char} (h : List.dropWhile p l = d :: t) : p d = false := by
  induction l with
  | nil => simp [List.dropWhile] at h
  | cons a l ih =>
    by_cases ha : p a
    · rw [List.dropWhile_cons_of_pos ha] at h
      exact ih h
    · rw [List.dropWhile_cons_of_neg ha] at h
      injection h with h1 _
      subst h1
      exact Bool.of_not_eq_true ha

theorem dropWhile_id_of_head {p : Char → Bool} {l : List Char}
    (h : l = [] ∨ ∃ d t, l = d :: t ∧ p d = false) :
    List.dropWhile p l = l := by
  rcases h with rfl | ⟨d, t, rfl, hd⟩
  · rfl
  · exact List.dropWhile_cons_of_neg (by simp [hd])

theorem matchTail_some {u r : List Char} (h : matchTail u = some r) :
    ∃ c t, u = c :: t ∧ pySpace c = false ∧
      r = List.dropWhile (fun x => !pySpace x) t := by
  cases u with
  | nil => simp [matchTail] at h
  | cons c t =>
    simp only [matchTail] at h
    by_cases hc : pySpace c
    · simp [hc] at h
    · rw [if_neg hc] at h
      injection h with h1
      refine ⟨c, t, rfl, Bool.of_not_eq_true hc, ?_⟩
      rw [← h1, List.dropWhile_cons_of_pos (by simp [Bool.of_not_eq_true hc])]

theorem matchTail_isSome {c : Char} {t : List Char} (hc : pySpace c = false) :
    (matchTail (c :: t)).isSome = true := by
  simp [matchTail, hc]

theorem matchPat_some {pat cs r : List Char} (h : matchPat pat cs = some r) :
    ∃ c t, cs = pat ++ c :: t ∧ pySpace c = false ∧
      r = List.dropWhile (fun x => !pySpace x) t := by
  simp only [matchPat] at h
  by_cases hb : beginsWith pat cs
  · rw [if_pos hb] at h
    obtain ⟨t0, rfl⟩ := (beginsWith_iff pat cs).mp hb
    rw [List.drop_left] at h
    obtain ⟨c, t, rfl, hc, hr⟩ := matchTail_some h
    exact ⟨c, t, rfl, hc, hr⟩
  · simp [hb] at h

theorem matchPat_isSome {pat : List Char} {c : Char} {t : List Char}
    (hc : pySpace c = false) :
    (matchPat pat (pat ++ c :: t)).isSome = true := by
  have hb : beginsWith pat (pat ++ c :: t) = true :=
    (beginsWith_iff _ _).mpr ⟨c :: t, rfl⟩
  simp only [matchPat, if_pos hb, List.drop_left]
  exact matchTail_isSome hc

theorem urlMatch_some {cs r : List Char} (h : urlMatch cs = some r) :
    ∃ pat c t, patOk pat ∧ cs = pat ++ c :: t ∧ pySpace c = false ∧
      r = List.dropWhile (fun x => !pySpace x) t := by
  simp only [urlMatch] at h
  cases h1 : matchPat "https://".toList cs with
  | some r1 =>
    rw [h1] at h
    injection h with hr
    obtain ⟨c, t, hcs, hc, hrr⟩ := matchPat_some h1
    exact ⟨_, c, t, Or.inl rfl, hcs, hc, hr ▸ hrr⟩
  | none =>
    rw [h1] at h
    cases h2 : matchPat "http://".toList cs with
    | some r2 =>
      rw [h2] at h
      injection h with hr
      obtain ⟨c, t, hcs, hc, hrr⟩ := matchPat_some h2
      exact ⟨_, c, t, Or.inr (Or.inl rfl), hcs, hc, hr ▸ hrr⟩
    | none =>
      rw [h2] at h
      obtain ⟨c, t, hcs, hc, hrr⟩ := matchPat_some h
      exact ⟨_, c, t, Or.inr (Or.inr rfl), hcs, hc, hrr⟩

theorem urlMatch_isSome_of {pat : List Char} {c : Char} {t cs : List Char}
    (hp : patOk pat) (hcs : cs = pat ++ c :: t) (hc : pySpace c = false) :
    (urlMatch cs).isSome = true := by
  subst hcs
  simp only [urlMatch]
  rcases hp with rfl | rfl | rfl
  · cases hm : matchPat "https://".toList ("https://".toList ++ c :: t) with
    | some r => simp
    | none =>
      have := @matchPat_isSome "https://".toList c t hc
      rw [hm] at this
      simp at this
  · cases hm1 : matchPat "https://".toList ("http://".toList ++ c :: t) with
    | some r => simp
    | none =>
      cases hm2 : matchPat "http://".toList ("http://".toList ++ c :: t) with
      | some r => simp
      | none =>
        have := @matchPat_isSome "http://".toList c t hc
        rw [hm2] at this
        simp at this
  · cases hm1 : matchPat "https://".toList ("www.".toList ++ c :: t) with
    | some r => simp
    | none =>
      cases hm2 : matchPat "http://".toList ("www.".toList ++ c :: t) with
      | some r => simp
      | none =>
        have := @matchPat_isSome "www.".toList c t hc
        simpa using this

theorem patOk_nonspace {pat : List Char} (hp : patOk pat) :
    ∀ c ∈ pat, pySpace c = false := by
  rcases hp with rfl | rfl | rfl
  · decide
  · decide
  · decide

theorem dropWhile_length_le (p : Char → Bool) (l : List Char) :
    (List.dropWhile p l).length ≤ l.length := by
  induction l with
  | nil => simp [List.dropWhile]
  | cons a l ih =>
    by_cases ha : p a
    · rw [List.dropWhile_cons_of_pos ha]
      exact Nat.le_succ_of_le ih
    · rw [List.dropWhile_cons_of_neg ha]

theorem urlMatch_some_length {cs r : List Char} (h : urlMatch cs = some r) :
    r.length < cs.length := by
  obtain ⟨pat, c, t, _, rfl, _, rfl⟩ := urlMatch_some h
  calc (List.dropWhile (fun x => !pySpace x) t).length
      ≤ t.length := dropWhile_length_le _ _
    _ < (pat ++ c :: t).length := by
        simp [List.length_append]
        omega

theorem urlMatch_some_head {cs r : List Char} (h : urlMatch cs = some r) :
    r = [] ∨ ∃ d t2, r = d :: t2 ∧ pySpace d = true := by
  obtain ⟨pat, c, t, _, _, _, rfl⟩ := urlMatch_some h
  cases hd : List.dropWhile (fun x => !pySpace x) t with
  | nil => exact Or.inl rfl
  | cons d t2 =>
    have := dropWhile_cons_false hd
    refine Or.inr ⟨d, t2, rfl, ?_⟩
    simpa using this

theorem spaceStopped_fits {x p u : List Char}
    (hx : ∃ t, x ++ t = p ++ u)
    (hns : ∀ c ∈ x, pySpace c = false)
    (hu : u = [] ∨ ∃ d ud, u = d :: ud ∧ pySpace d = true) :
    ∃ t2, x ++ t2 = p := by
  induction p generalizing x with
  | nil =>
    rcases hu with rfl | ⟨d, ud, rfl, hd⟩
    · obtain ⟨t, ht⟩ := hx
      simp only [List.nil_append] at ht
      have hxnil : x = [] := by
        cases x with
        | nil => rfl
        | cons a xt => simp at ht
      exact ⟨[], by simp [hxnil]⟩
    · cases x with
      | nil => exact ⟨[], rfl⟩
      | cons a xt =>
        obtain ⟨t, ht⟩ := hx
        simp only [List.cons_append, List.nil_append] at ht
        injection ht with h1 _
        have := hns a (by simp)
        rw [h1, hd] at this
        simp at this
  | cons b pb ih =>
    cases x with
    | nil => exact ⟨b :: pb, rfl⟩
    | cons a xt =>
      obtain ⟨t, ht⟩ := hx
      simp only [List.cons_append] at ht
      injection ht with h1 h2
      obtain ⟨t2, ht2⟩ := ih (x := xt) ⟨t, h2⟩ (fun c hc => hns c (by simp [hc])) 
      exact ⟨t2, by simp [h1, ht2]⟩

theorem urlMatch_absorb {p u : List Char}
    (h : (urlMatch (p ++ u)).isSome = true)
    (hu : u = [] ∨ ∃ d ud, u = d :: ud ∧ pySpace d = true) :
    ∀ v, (urlMatch (p ++ v)).isSome = true := by
  intro v
  obtain ⟨r, hr⟩ := Option.isSome_iff_exists.mp h
  obtain ⟨pat, c, t, hp, hcs, hc, _⟩ := urlMatch_some hr
  have hx : ∃ t0, (pat ++ [c]) ++ t0 = p ++ u := ⟨t, by simpa using hcs.symm⟩
  have hns : ∀ e ∈ pat ++ [c], pySpace e = false := by
    intro e he
    rcases List.mem_append.mp he with h1 | h2
    · exact patOk_nonspace hp e h1
    · simp only [List.mem_singleton] at h2
      subst h2
      exact hc
  obtain ⟨t2, ht2⟩ := spaceStopped_fits hx hns hu
  have : p ++ v = pat ++ c :: (t2 ++ v) := by
    rw [← ht2]
    simp
  exact urlMatch_isSome_of hp this hc

theorem removeUrlsAux_no_new :
    ∀ fuel rest p, rest.length ≤ fuel →
      (urlMatch (p ++ removeUrlsAux fuel rest)).isSome = true →
      (urlMatch (p ++ rest)).isSome = true := by
  intro fuel
  induction fuel with
  | zero =>
    intro rest p hlen h
    simpa [removeUrlsAux] using h
  | succ fuel ih =>
    intro rest p hlen h
    cases rest with
    | nil => simpa [removeUrlsAux] using h
    | cons c rest2 =>
      cases hm : urlMatch (c :: rest2) with
      | some rem =>
        rw [show removeUrlsAux (fuel + 1) (c :: rest2)
              = removeUrlsAux fuel rem by simp [removeUrlsAux, hm]] at h
        have hlen2 : rem.length ≤ fuel := by
          have := urlMatch_some_length hm
          simp only [List.length_cons] at this hlen
          omega
        have h2 := ih rem p hlen2 h
        have h3 := urlMatch_absorb h2 (urlMatch_some_head hm) (c :: rest2)
        exact h3
      | none =>
        rw [show removeUrlsAux (fuel + 1) (c :: rest2)
              = c :: removeUrlsAux fuel rest2 by simp [removeUrlsAux, hm]] at h
        rw [show p ++ c :: removeUrlsAux fuel rest2
              = (p ++ [c]) ++ removeUrlsAux fuel rest2 by simp] at h
        have h2 := ih rest2 (p ++ [c]) (by simpa using Nat.le_of_succ_le_succ hlen) h
        simpa using h2

theorem hasUrl_removeUrlsAux :
    ∀ fuel cs, cs.length ≤ fuel → hasUrl (removeUrlsAux fuel cs) = false := by
  intro fuel
  induction fuel with
  | zero =>
    intro cs hlen
    have : cs = [] := List.length_eq_zero.mp (Nat.le_zero.mp hlen)
    simp [this, removeUrlsAux, hasUrl]
  | succ fuel ih =>
    intro cs hlen
    cases cs with
    | nil => simp [removeUrlsAux, hasUrl]
    | cons c rest =>
      cases hm : urlMatch (c :: rest) with
      | some rem =>
        rw [show removeUrlsAux (fuel + 1) (c :: rest)
              = removeUrlsAux fuel rem by simp [removeUrlsAux, hm]]
        refine ih rem ?_
        have := urlMatch_some_length hm
        simp only [List.length_cons] at this hlen
        omega
      | none =>
        rw [show removeUrlsAux (fuel + 1) (c :: rest)
              = c :: removeUrlsAux fuel rest by simp [removeUrlsAux, hm]]
        have htail : hasUrl (removeUrlsAux fuel rest) = false :=
          ih rest (by simpa using Nat.le_of_succ_le_succ hlen)
        have hhead : (urlMatch (c :: removeUrlsAux fuel rest)).isSome = false := by
          by_contra hcon
          have hs : (urlMatch ([c] ++ removeUrlsAux fuel rest)).isSome = true := by
            simpa using Bool.of_not_eq_false hcon
          have h4 := removeUrlsAux_no_new fuel rest [c]
            (by simpa using Nat.le_of_succ_le_succ hlen) hs
          have h5 : (urlMatch (c :: rest)).isSome = true := by simpa using h4
          rw [hm] at h5
          simp at h5
        simp only [hasUrl, hhead, htail]
        rfl

theorem hasUrl_removeUrls (cs : List Char) : hasUrl (removeUrls cs) = false :=
  hasUrl_removeUrlsAux cs.length cs (Nat.le_refl _)

/-! ### `hasUrl` is preserved by the later pipeline stages -/

theorem urlMatch_extend {u : List Char} (h : (urlMatch u).isSome = true)
    (v : List Char) : (urlMatch (u ++ v)).isSome = true := by
  obtain ⟨r, hr⟩ := Option.isSome_iff_exists.mp h
  obtain ⟨pat, c, t, hp, rfl, hc, _⟩ := urlMatch_some hr
  exact urlMatch_isSome_of (t := t ++ v) hp (by simp) hc

theorem hasUrl_append_left {u v : List Char} (h : hasUrl (u ++ v) = false) :
    hasUrl u = false := by
  induction u with
  | nil => rfl
  | cons a u ih =>
    rw [List.cons_append] at h
    simp only [hasUrl, Bool.or_eq_false_iff] at h ⊢
    refine ⟨?_, ih h.2⟩
    by_contra hcon
    have h2 := urlMatch_extend (Bool.of_not_eq_false hcon) v
    rw [List.cons_append] at h2
    rw [h.1] at h2
    simp at h2

theorem hasUrl_append_right {u v : List Char} (h : hasUrl (u ++ v) = false) :
    hasUrl v = false := by
  induction u with
  | nil => simpa using h
  | cons a u ih =>
    rw [List.cons_append] at h
    simp only [hasUrl, Bool.or_eq_false_iff] at h
    exact ih h.2

theorem hasUrl_take {u : List Char} (h : hasUrl u = false) (n : Nat) :
    hasUrl (u.take n) = false := by
  refine hasUrl_append_left (v := u.drop n) ?_
  rwa [List.take_append_drop]

theorem hasUrl_dropWhile {u : List Char} (h : hasUrl u = false)
    (p : Char → Bool) : hasUrl (List.dropWhile p u) = false := by
  refine hasUrl_append_right (u := List.takeWhile p u) ?_
  rwa [List.takeWhile_append_dropWhile]

theorem rev_dropWhile_decomp (p : Char → Bool) (l : List Char) :
    (List.dropWhile p l.reverse).reverse
      ++ (List.takeWhile p l.reverse).reverse = l := by
  rw [← List.reverse_append, List.takeWhile_append_dropWhile, List.reverse_reverse]

theorem hasUrl_pyStrip {u : List Char} (h : hasUrl u = false) :
    hasUrl (pyStrip u) = false := by
  have h1 : hasUrl (List.dropWhile pySpace u) = false := hasUrl_dropWhile h _
  rw [← rev_dropWhile_decomp pySpace (List.dropWhile pySpace u)] at h1
  exact hasUrl_append_left h1

/-! ### Whitespace collapsing creates no URL match and yields collapsed text -/

theorem collapseWsGo_no_new :
    ∀ cs (p : List Char) b, (b = true → ∃ p0, p = p0 ++ [' ']) →
      (urlMatch (p ++ collapseWsGo b cs)).isSome = true →
      (urlMatch (p ++ cs)).isSome = true := by
  intro cs
  induction cs with
  | nil =>
    intro p b _ h
    simpa [collapseWsGo] using h
  | cons c rest ih =>
    intro p b hb h
    by_cases hc : pySpace c
    · cases b with
      | true =>
        obtain ⟨p0, rfl⟩ := hb rfl
        rw [show collapseWsGo true (c :: rest) = collapseWsGo true rest
              by simp [collapseWsGo, hc]] at h
        have habs : (urlMatch (p0 ++ (' ' :: collapseWsGo true rest))).isSome = true := by
          simpa using h
        have h2 := urlMatch_absorb habs
          (Or.inr ⟨' ', collapseWsGo true rest, rfl, by decide⟩)
          (' ' :: c :: rest)
        simpa using h2
      | false =>
        rw [show collapseWsGo false (c :: rest) = ' ' :: collapseWsGo true rest
              by simp [collapseWsGo, hc]] at h
        have h2 := urlMatch_absorb h
          (Or.inr ⟨' ', collapseWsGo true rest, rfl, by decide⟩)
          (c :: rest)
        exact h2
    · rw [show collapseWsGo b (c :: rest) = c :: collapseWsGo false rest
            by simp [collapseWsGo, hc]] at h
      rw [show p ++ c :: collapseWsGo false rest
            = (p ++ [c]) ++ collapseWsGo false rest by simp] at h
      have h2 := ih (p ++ [c]) false (by intro hfalse; cases hfalse) h
      simpa using h2

theorem hasUrl_collapseWsGo :
    ∀ cs b, hasUrl cs = false → hasUrl (collapseWsGo b cs) = false := by
  intro cs
  induction cs with
  | nil => intro b _; rfl
  | cons c rest ih =>
    intro b h
    simp only [hasUrl, Bool.or_eq_false_iff] at h
    by_cases hc : pySpace c
    · have htail : hasUrl (collapseWsGo true rest) = false := ih true h.2
      cases b with
      | true =>
        rw [show collapseWsGo true (c :: rest) = collapseWsGo true rest
              by simp [collapseWsGo, hc]]
        exact htail
      | false =>
        rw [show collapseWsGo false (c :: rest) = ' ' :: collapseWsGo true rest
              by simp [collapseWsGo, hc]]
        have hhead : (urlMatch (' ' :: collapseWsGo true rest)).isSome = false := by
          by_contra hcon
          obtain ⟨r, hr⟩ := Option.isSome_iff_exists.mp (Bool.of_not_eq_false hcon)
          obtain ⟨pat, d, t, hp, heq, _, _⟩ := urlMatch_some hr
          rcases hp with rfl | rfl | rfl
          · injection heq with h1 _
            exact absurd h1 (by decide)
          · injection heq with h1 _
            exact absurd h1 (by decide)
          · injection heq with h1 _
            exact absurd h1 (by decide)
        simp only [hasUrl, hhead, htail]
        rfl
    · rw [show collapseWsGo b (c :: rest) = c :: collapseWsGo false rest
            by simp [collapseWsGo, hc]]
      have htail : hasUrl (collapseWsGo false rest) = false := ih false h.2
      have hhead : (urlMatch (c :: collapseWsGo false rest)).isSome = false := by
        by_contra hcon
        have hs : (urlMatch ([c] ++ collapseWsGo false rest)).isSome = true := by
          simpa using Bool.of_not_eq_false hcon
        have h2 := collapseWsGo_no_new rest [c] false (by intro hf; cases hf) hs
        have h3 : (urlMatch (c :: rest)).isSome = true := by simpa using h2
        rw [h.1] at h3
        simp at h3
      simp only [hasUrl, hhead, htail]
      rfl

theorem hasUrl_cleanChars (cs : List Char) : hasUrl (cleanChars cs) = false := by
  rw [cleanChars]
  exact hasUrl_take (hasUrl_pyStrip (hasUrl_collapseWsGo _ false
    (hasUrl_removeUrls cs))) 1000

/-! ### Identity lemmas: a second sanitizer pass changes nothing (pre-truncation) -/

theorem removeUrlsAux_id :
    ∀ fuel cs, cs.length ≤ fuel → hasUrl cs = false →
      removeUrlsAux fuel cs = cs := by
  intro fuel
  induction fuel with
  | zero => intro cs _ _; rfl
  | succ fuel ih =>
    intro cs hlen h
    cases cs with
    | nil => rfl
    | cons c rest =>
      simp only [hasUrl, Bool.or_eq_false_iff] at h
      have hm : urlMatch (c :: rest) = none :=
        Option.not_isSome_iff_eq_none.mp (by simp [h.1])
      rw [show removeUrlsAux (fuel + 1) (c :: rest)
            = c :: removeUrlsAux fuel rest by simp [removeUrlsAux, hm]]
      rw [ih rest (by simpa using Nat.le_of_succ_le_succ hlen) h.2]

theorem collapsed_tail {c : Char} {rest : List Char}
    (h : collapsed (c :: rest) = true) : collapsed rest = true := by
  cases rest with
  | nil => rfl
  | cons d t =>
    simp only [collapsed, Bool.and_eq_true] at h
    exact h.2

theorem collapseWsGo_true_head (cs : List Char) :
    collapseWsGo true cs = [] ∨
      ∃ d t, collapseWsGo true cs = d :: t ∧ pySpace d = false := by
  induction cs with
  | nil => exact Or.inl rfl
  | cons c rest ih =>
    by_cases hc : pySpace c
    · rw [show collapseWsGo true (c :: rest) = collapseWsGo true rest
            by simp [collapseWsGo, hc]]
      exact ih
    · rw [show collapseWsGo true (c :: rest) = c :: collapseWsGo false rest
            by simp [collapseWsGo, hc]]
      exact Or.inr ⟨c, _, rfl, Bool.of_not_eq_true hc⟩

theorem collapsed_cons {c : Char} {rest : List Char}
    (hhead : pySpace c = false ∨
      (c = ' ' ∧ (rest = [] ∨ ∃ d t, rest = d :: t ∧ pySpace d = false)))
    (htail : collapsed rest = true) : collapsed (c :: rest) = true := by
  cases rest with
  | nil =>
    rcases hhead with h | ⟨rfl, _⟩
    · simp [collapsed, h]
    · simp [collapsed]
  | cons d t =>
    rcases hhead with h | ⟨rfl, h2⟩
    · simp [collapsed, h, htail]
    · rcases h2 with h2 | ⟨d2, t2, he, hd2⟩
      · cases h2
      · injection he with he1 he2
        subst he1; subst he2
        simp [collapsed, hd2, htail]

theorem collapsed_collapseWsGo : ∀ cs b, collapsed (collapseWsGo b cs) = true := by
  intro cs
  induction cs with
  | nil => intro b; rfl
  | cons c rest ih =>
    intro b
    by_cases hc : pySpace c
    · cases b with
      | true =>
        rw [show collapseWsGo true (c :: rest) = collapseWsGo true rest
              by simp [collapseWsGo, hc]]
        exact ih true
      | false =>
        rw [show collapseWsGo false (c :: rest) = ' ' :: collapseWsGo true rest
              by simp [collapseWsGo, hc]]
        refine collapsed_cons (Or.inr ⟨rfl, ?_⟩) (ih true)
        exact collapseWsGo_true_head rest
    · rw [show collapseWsGo b (c :: rest) = c :: collapseWsGo false rest
            by simp [collapseWsGo, hc]]
      exact collapsed_cons (Or.inl (Bool.of_not_eq_true hc)) (ih false)

theorem collapseWsGo_false_id :
    ∀ cs, collapsed cs = true → collapseWsGo false cs = cs := by
  intro cs
  induction cs with
  | nil => intro _; rfl
  | cons c rest ih =>
    intro h
    by_cases hc : pySpace c
    · have hc2 : c = ' ' := by
        cases rest with
        | nil =>
          simp only [collapsed, hc] at h
          simpa using h
        | cons d t =>
          simp only [collapsed, hc, Bool.and_eq_true] at h
          have h1 := h.1
          simp only [Bool.not_true, Bool.false_or, Bool.and_eq_true, beq_iff_eq] at h1
          exact h1.1
      cases rest with
      | nil => simp [collapseWsGo, hc, hc2]
      | cons d t =>
        have hd : pySpace d = false := by
          simp only [collapsed, hc, Bool.and_eq_true] at h
          have h1 := h.1
          simp only [Bool.not_true, Bool.false_or, Bool.and_eq_true, beq_iff_eq] at h1
          simpa using h1.2
        have htl := ih (collapsed_tail h)
        rw [show collapseWsGo false (d :: t) = d :: collapseWsGo false t
              by simp [collapseWsGo, hd]] at htl
        injection htl with _ htl2
        rw [show collapseWsGo false (c :: d :: t)
              = ' ' :: collapseWsGo true (d :: t) by simp [collapseWsGo, hc]]
        rw [show collapseWsGo true (d :: t) = d :: collapseWsGo false t
              by simp [collapseWsGo, hd]]
        rw [hc2, htl2]
    · rw [show collapseWsGo false (c :: rest) = c :: collapseWsGo false rest
            by simp [collapseWsGo, hc]]
      rw [ih (collapsed_tail h)]

theorem collapsed_append_right {u v : List Char}
    (h : collapsed (u ++ v) = true) : collapsed v = true := by
  induction u with
  | nil => simpa using h
  | cons a u ih =>
    rw [List.cons_append] at h
    exact ih (collapsed_tail h)

theorem collapsed_head_shape {c : Char} {rest : List Char}
    (h : collapsed (c :: rest) = true) :
    pySpace c = false ∨
      (c = ' ' ∧ (rest = [] ∨ ∃ d t, rest = d :: t ∧ pySpace d = false)) := by
  by_cases hc : pySpace c
  · cases rest with
    | nil =>
      simp only [collapsed, hc] at h
      refine Or.inr ⟨by simpa using h, Or.inl rfl⟩
    | cons d t =>
      simp only [collapsed, hc, Bool.and_eq_true] at h
      have h1 := h.1
      simp only [Bool.not_true, Bool.false_or, Bool.and_eq_true, beq_iff_eq] at h1
      exact Or.inr ⟨h1.1, Or.inr ⟨d, t, rfl, by simpa using h1.2⟩⟩
  · exact Or.inl (Bool.of_not_eq_true hc)

theorem collapsed_append_left {u v : List Char}
    (h : collapsed (u ++ v) = true) : collapsed u = true := by
  induction u with
  | nil => rfl
  | cons a u ih =>
    rw [List.cons_append] at h
    refine collapsed_cons ?_ (ih (collapsed_tail h))
    rcases collapsed_head_shape h with h1 | ⟨rfl, h2⟩
    · exact Or.inl h1
    · refine Or.inr ⟨rfl, ?_⟩
      rcases h2 with h2 | ⟨d, t, he, hd⟩
      · exact Or.inl (by cases u <;> simp_all)
      · cases u with
        | nil => exact Or.inl rfl
        | cons e u2 =>
          rw [List.cons_append] at he
          injection he with he1 he2
          exact Or.inr ⟨e, u2, rfl, he1 ▸ hd⟩

theorem collapsed_pyStrip {u : List Char} (h : collapsed u = true) :
    collapsed (pyStrip u) = true := by
  have h1 : collapsed (List.dropWhile pySpace u) = true := by
    refine collapsed_append_right (u := List.takeWhile pySpace u) ?_
    rwa [List.takeWhile_append_dropWhile]
  rw [← rev_dropWhile_decomp pySpace (List.dropWhile pySpace u)] at h1
  exact collapsed_append_left h1

theorem take_all_of_length_le {l : List Char} {n : Nat} (h : l.length ≤ n) :
    l.take n = l := by
  induction l generalizing n with
  | nil => simp
  | cons a l ih =>
    cases n with
    | zero => simp at h
    | succ n =>
      simp only [List.take]
      rw [ih (by simpa using Nat.le_of_succ_le_succ h)]

theorem dropWhile_dropWhile (p : Char → Bool) (l : List Char) :
    List.dropWhile p (List.dropWhile p l) = List.dropWhile p l := by
  cases hd : List.dropWhile p l with
  | nil => rfl
  | cons d t => exact dropWhile_id_of_head (Or.inr ⟨d, t, rfl, dropWhile_cons_false hd⟩)

theorem pyStrip_idem (u : List Char) : pyStrip (pyStrip u) = pyStrip u := by
  set a := List.dropWhile pySpace u with ha
  have hb : pyStrip u = (List.dropWhile pySpace a.reverse).reverse := by
    rw [pyStrip, ← ha]
  have hdecomp : pyStrip u ++ (List.takeWhile pySpace a.reverse).reverse = a := by
    rw [hb]
    exact rev_dropWhile_decomp pySpace a
  have hstep1 : List.dropWhile pySpace (pyStrip u) = pyStrip u := by
    refine dropWhile_id_of_head ?_
    cases hc : pyStrip u with
    | nil => exact Or.inl rfl
    | cons d t =>
      refine Or.inr ⟨d, t, rfl, ?_⟩
      rw [hc, List.cons_append] at hdecomp
      have hu : List.dropWhile pySpace u
          = d :: (t ++ (List.takeWhile pySpace a.reverse).reverse) := by
        rw [← ha]
        exact hdecomp.symm
      exact dropWhile_cons_false hu
  show ((List.dropWhile pySpace (pyStrip u)).reverse.dropWhile pySpace).reverse
      = pyStrip u
  rw [hstep1, hb, List.reverse_reverse, dropWhile_dropWhile]

theorem cleanChars_length_le (cs : List Char) : (cleanChars cs).length ≤ 1000 := by
  rw [cleanChars, List.length_take]
  exact min_le_left _ _

theorem cleanChars_idem {cs : List Char}
    (h : (pyStrip (collapseWs (removeUrls cs))).length ≤ 1000) :
    cleanChars (cleanChars cs) = cleanChars cs := by
  set t := pyStrip (collapseWs (removeUrls cs)) with ht
  have hlen : t.length ≤ 1000 := by rw [ht]; exact h
  have h1 : cleanChars cs = t := by
    rw [cleanChars, ← ht]
    exact take_all_of_length_le hlen
  have hurl : hasUrl t = false := by
    rw [ht]
    exact hasUrl_pyStrip (hasUrl_collapseWsGo _ false (hasUrl_removeUrls cs))
  have hcoll : collapsed t = true := by
    rw [ht]
    exact collapsed_pyStrip (collapsed_collapseWsGo _ false)
  have hrm : removeUrls t = t := removeUrlsAux_id t.length t (Nat.le_refl _) hurl
  have hcw : collapseWs t = t := collapseWsGo_false_id t hcoll
  have hps : pyStrip t = t := by
    rw [ht]
    exact pyStrip_idem _
  rw [h1, cleanChars, hrm, hcw, hps]
  exact take_all_of_length_le hlen

/-! ### Characterization of the `semantic_search` item loop -/

theorem pyGet_ok_getD {item : Json} {key : String} {v : Json}
    (h : pyGet item key = .ok v) : pyGetD item key = v := by
  cases item with
  | obj kvs =>
    simp only [pyGet] at h
    injection h with h1
  | null => exact Except.noConfusion h
  | bool b => exact Except.noConfusion h
  | num n => exact Except.noConfusion h
  | str s => exact Except.noConfusion h
  | arr l => exact Except.noConfusion h

theorem processItems_ok_eq :
    ∀ items results, processItems items = .ok results →
      results = items.filterMap
        (fun it => if includeItem it then some (mkResult it) else none) := by
  intro items
  induction items with
  | nil =>
    intro results h
    simp only [processItems] at h
    injection h with h1
    rw [← h1]
    rfl
  | cons item rest ih =>
    intro results h
    cases hg1 : pyGet item "_id" with
    | error e =>
      simp only [processItems, hg1] at h
      exact Except.noConfusion h
    | ok i =>
      cases hg2 : pyGet item "transcript" with
      | error e =>
        simp only [processItems, hg1, hg2] at h
        exact Except.noConfusion h
      | ok t =>
        simp only [processItems, hg1, hg2] at h
        have hi : pyGetD item "_id" = i := pyGet_ok_getD hg1
        have htr : pyGetD item "transcript" = t := pyGet_ok_getD hg2
        have hinc : includeItem item = (i.truthy && t.truthy) := by
          rw [includeItem, hi, htr]
        rw [← hinc] at h
        by_cases hic : includeItem item = true
        · rw [if_pos hic] at h
          cases t with
          | str s =>
            cases hrec : processItems rest with
            | error e =>
              simp only [hrec] at h
              exact Except.noConfusion h
            | ok tail =>
              simp only [hrec] at h
              injection h with h1
              have hmk : mkResult item = ⟨i, _clean s⟩ := by
                rw [mkResult, hi, htr]
                rfl
              rw [← h1, ih tail hrec]
              simp [List.filterMap_cons, hic, hmk]
          | null => exact Except.noConfusion h
          | bool b => exact Except.noConfusion h
          | num n => exact Except.noConfusion h
          | arr l => exact Except.noConfusion h
          | obj kvs => exact Except.noConfusion h
        · rw [if_neg hic] at h
          rw [ih results h]
          simp [List.filterMap_cons, hic]
theorem responseItems_spec {net : Except Unit HttpResponse} {items : List Json}
    (h : responseItems net = some items) :
    semantic_search net = processItems items := by
  cases net with
  | error e => simp [responseItems] at h
  | ok r =>
    cases hed : extractData r with
    | none =>
      simp only [responseItems, hed] at h
      exact Option.noConfusion h
    | some data =>
      cases hit : pyIter data with
      | error e =>
        simp only [responseItems, hed, hit] at h
        exact Option.noConfusion h
      | ok its =>
        simp only [responseItems, hed, hit] at h
        injection h with h1
        subst h1
        simp [semantic_search, hed, hit]

theorem semantic_search_ok_mem {net : Except Unit HttpResponse}
    {results : List SearchResult} {r : SearchResult}
    (h : semantic_search net = .ok results) (hr : r ∈ results) :
    r.id.truthy = true ∧ r.text.length ≤ 1000 := by
  cases net with
  | error e =>
    simp only [semantic_search] at h
    injection h with h1
    rw [← h1] at hr
    cases hr
  | ok resp =>
    cases hed : extractData resp with
    | none =>
      simp only [semantic_search, hed] at h
      injection h with h1
      rw [← h1] at hr
      cases hr
    | some data =>
      cases hit : pyIter data with
      | error e =>
        simp only [semantic_search, hed, hit] at h
        exact Except.noConfusion h
      | ok items =>
        simp only [semantic_search, hed, hit] at h
        rw [processItems_ok_eq items results h] at hr
        obtain ⟨it, _, hit2⟩ := List.mem_filterMap.mp hr
        by_cases hic : includeItem it = true
        · rw [if_pos hic] at hit2
          injection hit2 with h2
          constructor
          · rw [← h2, mkResult]
            simp only [includeItem, Bool.and_eq_true] at hic
            exact hic.1
          · rw [← h2, mkResult]
            exact cleanChars_length_le _
        · rw [if_neg hic] at hit2
          exact Option.noConfusion hit2

/-! ### Claim theorems -/

/-- C1 (code bug): `semantic_search`'s docstring promises "a list of unique
{id, text} dicts", and the spec requires dedup by id with first occurrence
winning, but the loop (with its comment "No need to check seen_ids") appends
every truthy entry: on a response whose `results` list carries two entries
with `_id = "a"`, both appear in the output with equal `id`. -/
theorem c1_semantic_search_duplicate_ids :
    semantic_search c1net
        = .ok [⟨Json.str "a", "x"⟩, ⟨Json.str "a", "y"⟩] ∧
      (⟨Json.str "a", "x"⟩ : SearchResult).id
        = (⟨Json.str "a", "y"⟩ : SearchResult).id :=
  ⟨rfl, rfl⟩

/-- C2 (counterexample): a whitespace-only prompt `" "` is truthy in Python,
so `if prompt:` lets it through — the reasoning step is invoked and two turns
are appended, contradicting the claim that whitespace-only input leaves the
history unchanged with no call issued. -/
theorem c2_whitespace_input_processed :
    (runTurn [] (some " ") (fun _ => Except.ok "answer")).2 = true ∧
      (runTurn [] (some " ") (fun _ => Except.ok "answer")).1
        = [⟨"user", " "⟩, ⟨"assistant", "answer"⟩] :=
  ⟨rfl, rfl⟩

/-- C2 (amended): only a missing submission or the empty string is skipped:
then the history is unchanged and no reasoning (hence no search) call is
issued.  A whitespace-only non-empty prompt is processed as a normal turn. -/
theorem c2_empty_input_ignored (history : List Turn)
    (prompt : Option String) (reason : List Turn → Except Unit String)
    (h : prompt = none ∨ prompt = some "") :
    runTurn history prompt reason = (history, false) := by
  rcases h with rfl | rfl
  · rfl
  · simp [runTurn]

theorem c2_empty_input_ignored_witness :
    ((some "" : Option String) = none ∨ (some "" : Option String) = some "") ∧
      runTurn [] (some "") (fun _ => Except.ok "answer") = ([], false) :=
  ⟨Or.inr rfl, c2_empty_input_ignored [] (some "")
    (fun _ => Except.ok "answer") (Or.inr rfl)⟩

/-- C3 (counterexample): the truthiness test `if _id and text:` runs on the
raw transcript, before `_clean`; a transcript consisting of a single URL is
truthy, yet sanitizes to the empty string, so the returned SearchResult has
`text = ""` — refuting the claim that every returned text is non-empty. -/
theorem c3_sanitized_text_can_be_empty :
    semantic_search c3net = .ok [⟨Json.str "a", ""⟩] :=
  rfl

/-- C3 (amended): in every successfully returned result list, each entry's
`id` is the truthy value of the entry's `_id` field (in particular a
non-empty string whenever it is a string), and each entry's sanitized text
has length at most 1000 — but the text may be empty after sanitization. -/
theorem c3_results_id_truthy {net : Except Unit HttpResponse}
    {results : List SearchResult} {r : SearchResult}
    (h : semantic_search net = .ok results) (hr : r ∈ results) :
    r.id.truthy = true ∧ r.text.length ≤ 1000 :=
  semantic_search_ok_mem h hr

theorem c3_results_id_truthy_witness :
    semantic_search c3okNet = .ok [⟨Json.str "a", "hello"⟩] ∧
      ((⟨Json.str "a", "hello"⟩ : SearchResult).id.truthy = true ∧
        (⟨Json.str "a", "hello"⟩ : SearchResult).text.length ≤ 1000) :=
  ⟨rfl, @c3_results_id_truthy c3okNet [⟨Json.str "a", "hello"⟩]
    ⟨Json.str "a", "hello"⟩ rfl (List.mem_singleton.mpr rfl)⟩

/-- C4: after one successful turn (non-empty prompt, reasoning step returns
an answer), the session history is exactly the old history with the user
turn and the assistant turn appended: its length is `history.length + 2`,
and the prior entries are untouched. -/
theorem c4_success_appends_two_turns (history : List Turn) (p answer : String)
    (reason : List Turn → Except Unit String) (hp : p ≠ "")
    (hr : reason (history ++ [⟨"user", p⟩]) = .ok answer) :
    (runTurn history (some p) reason).1
        = history ++ [⟨"user", p⟩, ⟨"assistant", answer⟩] ∧
      (runTurn history (some p) reason).1.length = history.length + 2 ∧
      (runTurn history (some p) reason).1.take history.length = history := by
  have h1 : (runTurn history (some p) reason).1
      = history ++ [⟨"user", p⟩, ⟨"assistant", answer⟩] := by
    simp only [runTurn, if_neg hp, hr]
  refine ⟨h1, ?_, ?_⟩
  · rw [h1]
    simp
  · rw [h1]
    exact List.take_left history _

theorem c4_success_appends_two_turns_witness :
    ("hi" : String) ≠ "" ∧
      ((runTurn [] (some "hi") (fun _ => Except.ok "yes")).1
          = [⟨"user", "hi"⟩, ⟨"assistant", "yes"⟩] ∧
        (runTurn [] (some "hi") (fun _ => Except.ok "yes")).1.length = 0 + 2 ∧
        (runTurn [] (some "hi") (fun _ => Except.ok "yes")).1.take 0 = []) := by
  refine ⟨by decide, ?_⟩
  have h := c4_success_appends_two_turns [] "hi" "yes"
    (fun _ => Except.ok "yes") (by decide) rfl
  exact h

/-- C5: when the reasoning step raises (the `asyncio.run` call fails, or the
turn is aborted there), `st.session_state.history.extend` is never reached,
so the session history is exactly what it was before the turn: no user turn
and no partial assistant turn is appended. -/
theorem c5_failed_reasoning_preserves_history (history : List Turn)
    (p : String) (e : Unit) (reason : List Turn → Except Unit String)
    (hp : p ≠ "") (hr : reason (history ++ [⟨"user", p⟩]) = .error e) :
    (runTurn history (some p) reason).1 = history := by
  simp only [runTurn, if_neg hp, hr]

theorem c5_failed_reasoning_preserves_history_witness :
    ("hi" : String) ≠ "" ∧
      (runTurn [⟨"user", "old"⟩, ⟨"assistant", "old answer"⟩] (some "hi")
          (fun _ => Except.error ())).1
        = [⟨"user", "old"⟩, ⟨"assistant", "old answer"⟩] :=
  ⟨by decide, c5_failed_reasoning_preserves_history
    [⟨"user", "old"⟩, ⟨"assistant", "old answer"⟩] "hi" ()
    (fun _ => Except.error ()) (by decide) rfl⟩

/-- C6 (counterexample): the item loop runs outside the `try`; a body that
parses as an object but whose `results` list contains a non-object entry
(here the number 5) makes `item.get("_id")` raise `AttributeError`, which
propagates to the caller instead of yielding `[]` — so "any body that cannot
be parsed as expected yields the empty list and raises no error" is false. -/
theorem c6_nonobject_entry_raises :
    semantic_search c6net = .error PyErr.attributeError :=
  rfl

/-- C6 (amended): every failure the `except` clause can see — a network
error, a non-2xx status, a malformed body, or a top-level body that is not
an object — yields `[]` and raises nothing; only a well-formed object body
with malformed entries inside the `results` list escapes this protection. -/
theorem c6_caught_failures_yield_empty {net : Except Unit HttpResponse}
    (h : badRequest net) : semantic_search net = .ok [] := by
  cases net with
  | error e => rfl
  | ok r =>
    simp only [badRequest] at h
    rcases h with h1 | h2 | ⟨j, hj, hobj⟩
    · simp [semantic_search, extractData, h1]
    · simp [semantic_search, extractData, h2]
    · cases j <;> simp_all [semantic_search, extractData, Json.isObj]

theorem c6_caught_failures_yield_empty_witness :
    badRequest (Except.error ()) ∧
      semantic_search (Except.error ()) = Except.ok [] :=
  ⟨trivial, c6_caught_failures_yield_empty trivial⟩

/-- C7: the sanitized text contains no substring matching the URL regex
`https?://\S+|www\.\S+` at any position. -/
theorem c7_clean_has_no_url (s : String) : hasUrl (_clean s).data = false :=
  hasUrl_cleanChars s.data

/-- C8: the sanitized text is at most 1000 characters long. -/
theorem c8_clean_length_le_1000 (s : String) : (_clean s).length ≤ 1000 :=
  cleanChars_length_le s.data

set_option maxRecDepth 100000 in
/-- C9 (counterexample): on the 1001-character URL-free string
`"a b b ... b"` the truncation `[:1000]` cuts right after a space; the second
`_clean` strips that trailing space, so `_clean` is not idempotent even
though no URL is split at the boundary — refuting the claim as stated. -/
theorem c9_truncation_breaks_idempotence : _clean (_clean s9) ≠ _clean s9 := by
  decide

/-- C9 (amended): `_clean` is idempotent on every input whose URL-stripped,
whitespace-collapsed, stripped text is at most 1000 characters, i.e.
whenever the `[:1000]` truncation does not actually cut anything. -/
theorem c9_clean_idempotent_without_truncation (s : String)
    (h : (pyStrip (collapseWs (removeUrls s.data))).length ≤ 1000) :
    _clean (_clean s) = _clean s := by
  show String.mk (cleanChars (String.mk (cleanChars s.data)).data)
      = String.mk (cleanChars s.data)
  have hd : (String.mk (cleanChars s.data)).data = cleanChars s.data := rfl
  rw [hd, cleanChars_idem h]

theorem c9_clean_idempotent_without_truncation_witness :
    (pyStrip (collapseWs (removeUrls "a  b".data))).length ≤ 1000 ∧
      _clean (_clean "a  b") = _clean "a  b" :=
  ⟨by decide, c9_clean_idempotent_without_truncation "a  b" (by decide)⟩

/-- C10: when `semantic_search` returns normally, its output is exactly the
per-entry filter of the response's `results` list: an entry contributes its
`{id, text}` dict exactly when both its `_id` field and its `transcript`
field are present and truthy (missing fields read as `None`, and falsy values
such as `""`, `null` and `0` are excluded), in response order. -/
theorem c10_included_iff_truthy_fields {net : Except Unit HttpResponse}
    {items : List Json} {results : List SearchResult}
    (hitems : responseItems net = some items)
    (h : semantic_search net = .ok results) :
    results = items.filterMap
      (fun it => if includeItem it then some (mkResult it) else none) := by
  rw [responseItems_spec hitems] at h
  exact processItems_ok_eq items results h

theorem c10_included_iff_truthy_fields_witness :
    responseItems c10net = some c10items ∧
      semantic_search c10net
        = .ok [⟨Json.str "a", "x"⟩, ⟨Json.str "c", "z"⟩] ∧
      [(⟨Json.str "a", "x"⟩ : SearchResult), ⟨Json.str "c", "z"⟩]
        = c10items.filterMap
            (fun it => if includeItem it then some (mkResult it) else none) :=
  ⟨rfl, rfl, @c10_included_iff_truthy_fields c10net c10items
    [⟨Json.str "a", "x"⟩, ⟨Json.str "c", "z"⟩] rfl rfl⟩

end ChatAgent
